import Mathlib

/-!
# Verification of `AL::ArrayList` (src/ArrayList.hpp)

Shallow embedding of the dynamic-array container `AL::ArrayList<T>`.

Modelling conventions:
* the heap buffer `m_data` (of `m_capacity` allocated cells) is a `List T`
  whose length is the capacity; `new value_type[n]{}` value-initializes, so
  fresh cells are modelled by `default : T`;
* `m_size` counts the cells in logical use;
* iterators are offsets from `begin()`, i.e. plain `Nat` indices into the
  current buffer (an offset is never negative, so the source's
  `pos < iterator(m_data)` test is identically false in the model);
* operations that can `throw std::out_of_range` return `Except Err _` with
  `Err.outOfRange`; places where the source's pointer arithmetic violates a
  C++ precondition (invalid ranges passed to `std::copy`, or reads through an
  iterator into a buffer that `delete [] m_data` has already freed) return
  `Err.undefinedBehavior`, since no defined result exists there.
-/

set_option linter.unusedVariables false
set_option linter.unusedSectionVars false

/-- Decidable equality on `Except`, used to evaluate the models on concrete
inputs. -/
def exceptDecEq {ε α : Type} [DecidableEq ε] [DecidableEq α] :
    (a b : Except ε α) → Decidable (a = b)
  | .error e, .error f =>
    if h : e = f then isTrue (congrArg Except.error h)
    else isFalse (fun hc => h (Except.error.inj hc))
  | .error _, .ok _ => isFalse (fun hc => Except.noConfusion hc)
  | .ok _, .error _ => isFalse (fun hc => Except.noConfusion hc)
  | .ok a, .ok b =>
    if h : a = b then isTrue (congrArg Except.ok h)
    else isFalse (fun hc => h (Except.ok.inj hc))

instance {ε α : Type} [DecidableEq ε] [DecidableEq α] :
    DecidableEq (Except ε α) := exceptDecEq

namespace AL

/-- Error outcomes of the source's checked operations: `outOfRange` models a
thrown `std::out_of_range`; `undefinedBehavior` marks control paths on which
the C++ source violates a library precondition (dangling iterator or invalid
copy range) and hence has no defined result. -/
inductive Err : Type where
  | outOfRange : Err
  | undefinedBehavior : Err
deriving DecidableEq, Repr

/-- The container state: `m_size` live elements inside a buffer `m_data`
whose length is the allocated capacity `m_capacity`. -/
structure ArrayList (T : Type) : Type where
  m_size : Nat
  m_data : List T
deriving DecidableEq, Repr

variable {T : Type} [Inhabited T]

/-- `capacity()`: the allocated length of the buffer. -/
def ArrayList.capacity (l : ArrayList T) : Nat := l.m_data.length

/-- `size()`: the number of elements in logical use. -/
def ArrayList.size (l : ArrayList T) : Nat := l.m_size

/-- `empty()`. -/
def ArrayList.isEmpty (l : ArrayList T) : Bool := l.size == 0

/-- The live contents `[begin, end)`, i.e. the first `m_size` buffer cells. -/
def ArrayList.elems (l : ArrayList T) : List T := l.m_data.take l.m_size

/-- The class invariant: the live region fits in the allocated buffer. -/
def ArrayList.inv (l : ArrayList T) : Prop := l.m_size ≤ l.m_data.length

instance (l : ArrayList T) : Decidable l.inv := by
  unfold ArrayList.inv; infer_instance

/-- `std::copy(src.begin(), src.end(), dest + i)` for buffers: overwrite
`dest` starting at offset `i` with the elements of `src`, keeping the rest of
`dest`.  The definition truncates writes that would fall beyond `dest` (in
the source those would be out-of-bounds writes; all uses below stay in
bounds), so the result always has `dest`'s length. -/
def writeRange (dest : List T) (i : Nat) (src : List T) : List T :=
  dest.take i ++ src.take (dest.length - i) ++ dest.drop (i + src.length)

/-- `std::copy(first, last, dpos)` within one buffer, for `dpos ≤ first`
(the forward overlapping copy used by `erase`): cells `[dpos, dpos + (last -
first))` receive the old cells `[first, last)`, the rest is unchanged. -/
def copyWithin (data : List T) (first last dpos : Nat) : List T :=
  data.take dpos ++ (data.drop first).take (last - first) ++
    data.drop (dpos + (last - first))

/-- `std::copy_backward(first, last, last + 1)` within one buffer (the shift
used by `insert`): cells `[first + 1, last + 1)` receive the old cells
`[first, last)`, the rest is unchanged. -/
def copyBackwardWithin (data : List T) (first last : Nat) : List T :=
  data.take (first + 1) ++ (data.drop first).take (last - first) ++
    data.drop (last + 1)

/-- `ArrayList(size_type count = 0)`: `count` value-initialized elements in a
buffer of exactly `count` cells (`m_capacity(count), m_size(count),
m_data(new value_type[count]{})`). -/
def ArrayList.mkCount (count : Nat) : ArrayList T :=
  ⟨count, List.replicate count default⟩

/-- Copy constructor `ArrayList(const ArrayList& other)`: delegates to
`ArrayList(other.size())` and then `std::copy(other.begin(), other.end(),
begin())`. -/
def ArrayList.copyConstruct (other : ArrayList T) : ArrayList T :=
  let base : ArrayList T := ArrayList.mkCount other.m_size
  ⟨base.m_size, writeRange base.m_data 0 other.elems⟩

/-- Move constructor `ArrayList(ArrayList&& other)`: `std::exchange` takes
the three members and leaves the source as `capacity = 0, size = 0,
data = nullptr`.  Returns (destination, moved-from source). -/
def ArrayList.moveConstruct (other : ArrayList T) : ArrayList T × ArrayList T :=
  (⟨other.m_size, other.m_data⟩, ⟨0, []⟩)

/-- `at(pos)`: throws out-of-range when `pos > size() || pos == size()`,
otherwise returns the buffer cell `*(m_data + pos)`. -/
def ArrayList.atIdx (l : ArrayList T) (pos : Nat) : Except Err T :=
  if pos > l.size ∨ pos = l.size then .error .outOfRange
  else .ok (l.m_data.getD pos default)

/-- `front()`: throws out-of-range when `size() == 0`, else `*begin()`. -/
def ArrayList.front (l : ArrayList T) : Except Err T :=
  if l.size = 0 then .error .outOfRange
  else .ok (l.m_data.getD 0 default)

/-- `clear()`: `m_size = 0`, buffer kept. -/
def ArrayList.clear (l : ArrayList T) : ArrayList T := ⟨0, l.m_data⟩

/-- `swap(other)`: exchanges `m_capacity`, `m_size`, `m_data`. -/
def ArrayList.swap (l other : ArrayList T) : ArrayList T × ArrayList T :=
  (other, l)

/-- `push_back(value)`: if `size() == capacity()`, grow to
`capacity == 0 ? 1 : capacity * 2` by allocating a value-initialized buffer,
copying the live elements over and adopting it; then write `value` at offset
`m_size` and increment `m_size`. -/
def ArrayList.push_back (l : ArrayList T) (value : T) : ArrayList T :=
  let grown : ArrayList T :=
    if l.size = l.capacity then
      let newCap : Nat := if l.capacity = 0 then 1 else l.capacity * 2
      ⟨l.m_size, writeRange (List.replicate newCap default) 0 l.elems⟩
    else l
  ⟨grown.m_size + 1, grown.m_data.set grown.m_size value⟩

/-- `insert(pos, value)`.  The source captures `iterator z = end();` before
anything else, rejects `pos < begin()` (impossible for an offset) and
`pos > end()`, and on `size() == capacity()` reallocates: it re-derives `pos`
as an offset into the new buffer but leaves `z` pointing into the buffer that
`delete [] m_data` just freed, so the following
`std::copy_backward(pos, z, ++z)` reads through a dangling iterator —
undefined behavior.  On the non-growing path the same call shifts
`[pos, end())` one slot toward the back; then `*pos = value; ++m_size;` and
`pos` is returned. -/
def ArrayList.insert (l : ArrayList T) (pos : Nat) (value : T) :
    Except Err (ArrayList T × Nat) :=
  let z : Nat := l.m_size
  if pos > l.m_size then .error .outOfRange
  else if l.size = l.capacity then .error .undefinedBehavior
  else
    let data1 : List T := copyBackwardWithin l.m_data pos z
    .ok (⟨l.m_size + 1, data1.set pos value⟩, pos)

/-- `erase(pos)`: rejects `pos < begin() || pos == begin()` (for an offset:
`pos = 0`) and `pos > end()` (`pos > m_size`) with out-of-range.  Note the
upper test is strict, so `pos == end()` is accepted; there
`std::copy(pos + 1, end(), pos)` receives the invalid range
`[end()+1, end())` — undefined behavior.  For `1 ≤ pos < size()` the call
shifts `[pos+1, end())` one slot toward the front and decrements `m_size`,
returning `pos`. -/
def ArrayList.erase (l : ArrayList T) (pos : Nat) :
    Except Err (ArrayList T × Nat) :=
  if pos = 0 then .error .outOfRange
  else if pos > l.m_size then .error .outOfRange
  else if l.m_size < pos + 1 then .error .undefinedBehavior
  else
    let data1 : List T := copyWithin l.m_data (pos + 1) l.m_size pos
    .ok (⟨l.m_size - 1, data1⟩, pos)

/-- `resize(count)`: when `count != size()`, allocate a value-initialized
buffer of exactly `count` cells, copy the first `min(count, size())` live
elements over, adopt it and set `m_capacity = m_size = count`; when
`count == size()`, do nothing. -/
def ArrayList.resize (l : ArrayList T) (count : Nat) : ArrayList T :=
  if l.size ≠ count then
    ⟨count, writeRange (List.replicate count default) 0
      (l.m_data.take (min count l.m_size))⟩
  else l

/-- Copy assignment `operator=(const ArrayList& rhs)` (non-self case): when
the capacities differ, replace the buffer by a value-initialized one of
`rhs.capacity()` cells; then `std::copy(rhs.begin(), rhs.end(), begin())`
and `m_size = rhs.size()`. -/
def ArrayList.copyAssign (l rhs : ArrayList T) : ArrayList T :=
  let base : ArrayList T :=
    if l.capacity ≠ rhs.capacity then
      ⟨0, List.replicate rhs.capacity default⟩
    else l
  ⟨rhs.m_size, writeRange base.m_data 0 rhs.elems⟩

/-- Move assignment `operator=(ArrayList&& other)` (non-self case):
`std::exchange` moves the three members over and zeroes the source.
Returns (assigned-to container, moved-from source). -/
def ArrayList.moveAssign (l other : ArrayList T) : ArrayList T × ArrayList T :=
  (⟨other.m_size, other.m_data⟩, ⟨0, []⟩)

/-- `operator+=(other)` (distinct operands): let
`reqd_size = size() + other.size()`; if `capacity() < reqd_size`, reallocate
to exactly `reqd_size` cells and copy the live elements over; then
`std::copy(other.begin(), other.end(), begin() + size())` and
`m_size += other.m_size`. -/
def ArrayList.plusAssign (l other : ArrayList T) : ArrayList T :=
  let reqd : Nat := l.size + other.size
  let base : ArrayList T :=
    if l.capacity < reqd then
      ⟨l.m_size, writeRange (List.replicate reqd default) 0 l.elems⟩
    else l
  ⟨base.m_size + other.m_size, writeRange base.m_data base.m_size other.elems⟩

/-- `operator==`: `std::equal(lhs.begin(), lhs.end(), rhs.begin(),
rhs.end())` — true iff the live ranges have equal length and equal
corresponding elements, i.e. iff the `elems` lists are equal. -/
def ArrayList.beq [DecidableEq T] (lhs rhs : ArrayList T) : Bool :=
  decide (lhs.elems = rhs.elems)

/-- `operator+`: `return ArrayList<T>(lhs) += rhs;` — copy-construct from
the left operand, then append-range the right operand. -/
def ArrayList.plus (lhs rhs : ArrayList T) : ArrayList T :=
  (ArrayList.copyConstruct lhs).plusAssign rhs

/-- Fold a list of `push_back` calls, left to right. -/
def ArrayList.pushAll (l : ArrayList T) (vs : List T) : ArrayList T :=
  vs.foldl ArrayList.push_back l

/-- `inv` holds after an operation that may fail: trivially on the error
paths, and for the resulting container on the success path. -/
def invOutcome : Except Err (ArrayList T × Nat) → Prop
  | .ok (r, _) => r.inv
  | .error _ => True

instance (e : Except Err (ArrayList T × Nat)) : Decidable (invOutcome e) := by
  unfold invOutcome
  rcases e with _ | ⟨r, p⟩ <;> infer_instance

/-! ### Buffer-manipulation lemmas -/

theorem writeRange_length (dest : List T) (i : Nat) (src : List T) :
    (writeRange dest i src).length = dest.length := by
  simp [writeRange]
  omega

theorem writeRange_zero (dest src : List T) (h : src.length ≤ dest.length) :
    writeRange dest 0 src = src ++ dest.drop src.length := by
  simp [writeRange, List.take_of_length_le h]

theorem set_take_succ (xs : List T) (i : Nat) (v : T) (h : i < xs.length) :
    (xs.set i v).take (i + 1) = xs.take i ++ [v] := by
  rw [List.set_eq_take_cons_drop v h]
  have hlen : (xs.take i).length = i := by
    simp [List.length_take]
    omega
  calc (xs.take i ++ v :: xs.drop (i + 1)).take (i + 1)
      = (xs.take i ++ v :: xs.drop (i + 1)).take ((xs.take i).length + 1) := by
        rw [hlen]
    _ = xs.take i ++ (v :: xs.drop (i + 1)).take 1 := List.take_append 1
    _ = xs.take i ++ [v] := by simp

theorem elems_length (l : ArrayList T) (h : l.inv) :
    l.elems.length = l.m_size := by
  have h' : l.m_size ≤ l.m_data.length := h
  simp [ArrayList.elems, List.length_take]
  omega

/-! ### Operation-level lemmas -/

theorem mkCount_inv (count : Nat) : (ArrayList.mkCount count : ArrayList T).inv := by
  simp [ArrayList.mkCount, ArrayList.inv]

theorem copyConstruct_m_data (x : ArrayList T) (h : x.inv) :
    x.copyConstruct.m_data = x.elems := by
  have hlen : x.elems.length = x.m_size := elems_length x h
  simp only [ArrayList.copyConstruct, ArrayList.mkCount]
  rw [writeRange_zero _ _ (by simp [hlen])]
  simp [hlen]

theorem copyConstruct_m_size (x : ArrayList T) :
    x.copyConstruct.m_size = x.m_size := rfl

theorem copyConstruct_elems (x : ArrayList T) (h : x.inv) :
    x.copyConstruct.elems = x.elems := by
  have hlen : x.elems.length = x.m_size := elems_length x h
  simp [ArrayList.elems, copyConstruct_m_data x h, copyConstruct_m_size,
    List.take_of_length_le (le_of_eq hlen)]

theorem copyConstruct_inv (x : ArrayList T) (h : x.inv) :
    x.copyConstruct.inv := by
  simp [ArrayList.inv, copyConstruct_m_data x h, copyConstruct_m_size,
    elems_length x h]

theorem copyConstruct_capacity (x : ArrayList T) :
    x.copyConstruct.capacity = x.m_size := by
  simp [ArrayList.capacity, ArrayList.copyConstruct, ArrayList.mkCount,
    writeRange_length]

theorem push_back_spec (l : ArrayList T) (v : T) (h : l.inv) :
    (l.push_back v).m_size = l.m_size + 1
  ∧ (l.push_back v).inv
  ∧ (l.push_back v).elems = l.elems ++ [v] := by
  by_cases hc : l.size = l.capacity
  · -- growth branch
    have hLen : l.m_data.length = l.m_size := hc.symm
    set newCap : Nat := if l.capacity = 0 then 1 else l.capacity * 2 with hCap
    set W : List T := writeRange (List.replicate newCap default) 0 l.elems
      with hWdef
    have hlt : l.m_size < newCap := by
      simp only [hCap, ArrayList.capacity, hLen]
      split <;> omega
    have helemlen : l.elems.length = l.m_size := elems_length l h
    have hgrow : l.push_back v = ⟨l.m_size + 1, W.set l.m_size v⟩ := by
      simp only [ArrayList.push_back, if_pos hc, hWdef, hCap]
    have hWlen : W.length = newCap := by
      rw [hWdef, writeRange_length]
      simp
    have hW : W = l.elems ++ (List.replicate newCap (default : T)).drop l.m_size := by
      rw [hWdef, writeRange_zero _ _ (by simp [helemlen]; omega), helemlen]
    refine ⟨by rw [hgrow], ?_, ?_⟩
    · show (l.push_back v).m_size ≤ (l.push_back v).m_data.length
      rw [hgrow]
      simp only [List.length_set, hWlen]
      omega
    · rw [hgrow]
      show (W.set l.m_size v).take (l.m_size + 1) = l.elems ++ [v]
      rw [set_take_succ _ _ _ (by rw [hWlen]; exact hlt), hW,
        List.take_left' helemlen]
  · -- no-growth branch
    have hlt : l.m_size < l.m_data.length := by
      rcases lt_or_eq_of_le h with h' | h'
      · exact h'
      · exact absurd h' hc
    have hpb : l.push_back v = ⟨l.m_size + 1, l.m_data.set l.m_size v⟩ := by
      simp only [ArrayList.push_back, if_neg hc]
    refine ⟨by rw [hpb], ?_, ?_⟩
    · show (l.push_back v).m_size ≤ (l.push_back v).m_data.length
      rw [hpb]
      simp only [List.length_set]
      omega
    · rw [hpb]
      show (l.m_data.set l.m_size v).take (l.m_size + 1) = l.elems ++ [v]
      exact set_take_succ _ _ _ hlt

theorem pushAll_spec : ∀ (vs : List T) (l : ArrayList T), l.inv →
    (l.pushAll vs).m_size = l.m_size + vs.length
  ∧ (l.pushAll vs).inv
  ∧ (l.pushAll vs).elems = l.elems ++ vs
  | [], l, h => by simp [ArrayList.pushAll, h]
  | v :: vs, l, h => by
    obtain ⟨h1, h2, h3⟩ := push_back_spec l v h
    obtain ⟨ih1, ih2, ih3⟩ := pushAll_spec vs (l.push_back v) h2
    have hfold : l.pushAll (v :: vs) = (l.push_back v).pushAll vs := rfl
    refine ⟨?_, by rw [hfold]; exact ih2, ?_⟩
    · rw [hfold, ih1, h1]
      simp
      omega
    · rw [hfold, ih3, h3]
      simp

theorem atIdx_ok_of_lt (l : ArrayList T) (pos : Nat) (hinv : l.inv)
    (h : pos < l.m_size) :
    l.atIdx pos = .ok (l.elems.getD pos default) := by
  have hns : ¬ (pos > l.size ∨ pos = l.size) := by
    simp only [ArrayList.size]
    omega
  simp only [ArrayList.atIdx, if_neg hns]
  have hlt : pos < l.m_data.length := lt_of_lt_of_le h hinv
  have hlt2 : pos < l.elems.length := by
    rw [elems_length l hinv]
    exact h
  rw [List.getD_eq_getElem l.m_data default hlt,
    List.getD_eq_getElem l.elems default hlt2]
  simp [ArrayList.elems]

theorem erase_error_iff (l : ArrayList T) (pos : Nat) :
    l.erase pos = .error .outOfRange ↔ (pos = 0 ∨ l.m_size < pos) := by
  unfold ArrayList.erase
  by_cases h0 : pos = 0
  · simp [h0]
  · rw [if_neg h0]
    by_cases h1 : pos > l.m_size
    · simp only [if_pos h1]
      simp
      omega
    · rw [if_neg h1]
      by_cases h2 : l.m_size < pos + 1
      · rw [if_pos h2]
        simp
        omega
      · rw [if_neg h2]
        simp
        omega

theorem erase_ok_spec (l : ArrayList T) (pos : Nat) (hinv : l.inv)
    (h1 : 1 ≤ pos) (h2 : pos < l.m_size) :
    l.erase pos = .ok (⟨l.m_size - 1, copyWithin l.m_data (pos + 1) l.m_size pos⟩, pos)
  ∧ (copyWithin l.m_data (pos + 1) l.m_size pos).length = l.m_data.length
  ∧ (copyWithin l.m_data (pos + 1) l.m_size pos).take (l.m_size - 1)
      = l.elems.take pos ++ l.elems.drop (pos + 1) := by
  have hL : l.m_size ≤ l.m_data.length := hinv
  refine ⟨?_, ?_, ?_⟩
  · unfold ArrayList.erase
    rw [if_neg (by omega), if_neg (by omega), if_neg (by omega)]
  · simp [copyWithin, List.length_take, List.length_drop]
    omega
  · -- the copied buffer, truncated to the new size
    have hA : (l.m_data.take pos).length = pos := by
      simp [List.length_take]
      omega
    have hB : ((l.m_data.drop (pos + 1)).take (l.m_size - (pos + 1))).length
        = l.m_size - (pos + 1) := by
      simp [List.length_take, List.length_drop]
      omega
    have hAB : (l.m_data.take pos
        ++ (l.m_data.drop (pos + 1)).take (l.m_size - (pos + 1))).length
        = l.m_size - 1 := by
      rw [List.length_append, hA, hB]
      omega
    unfold copyWithin
    rw [List.take_append_of_le_length hAB.ge, List.take_of_length_le hAB.le]
    have hTa : l.elems.take pos = l.m_data.take pos := by
      simp [ArrayList.elems, List.take_take]
      omega
    have hTd : l.elems.drop (pos + 1)
        = (l.m_data.drop (pos + 1)).take (l.m_size - (pos + 1)) := by
      simp [ArrayList.elems, List.drop_take]
    rw [hTa, hTd]

theorem insert_ok_spec (l : ArrayList T) (pos : Nat) (v : T) (hinv : l.inv)
    (hpos : pos ≤ l.m_size) (hroom : l.m_size < l.m_data.length) :
    l.insert pos v
      = .ok (⟨l.m_size + 1, (copyBackwardWithin l.m_data pos l.m_size).set pos v⟩, pos)
  ∧ ((copyBackwardWithin l.m_data pos l.m_size).set pos v).length = l.m_data.length
  ∧ (((copyBackwardWithin l.m_data pos l.m_size).set pos v).take (l.m_size + 1)
      = l.elems.take pos ++ v :: l.elems.drop pos) := by
  have hCB : copyBackwardWithin l.m_data pos l.m_size
      = l.m_data.take (pos + 1)
        ++ (l.m_data.drop pos).take (l.m_size - pos)
        ++ l.m_data.drop (l.m_size + 1) := rfl
  have hCBlen : (copyBackwardWithin l.m_data pos l.m_size).length
      = l.m_data.length := by
    simp [copyBackwardWithin, List.length_take, List.length_drop]
    omega
  refine ⟨?_, ?_, ?_⟩
  · unfold ArrayList.insert
    rw [if_neg (by omega), if_neg (by
      show ¬ l.size = l.capacity
      simp only [ArrayList.size, ArrayList.capacity]
      omega)]
  · simp [List.length_set, hCBlen]
  · -- truncating the shifted buffer to the new size
    have hA : (l.m_data.take (pos + 1)).length = pos + 1 := by
      simp [List.length_take]
      omega
    have hB : ((l.m_data.drop pos).take (l.m_size - pos)).length
        = l.m_size - pos := by
      simp [List.length_take, List.length_drop]
      omega
    -- the set at pos lands inside the first block `data.take (pos + 1)`
    have hsetCB : (copyBackwardWithin l.m_data pos l.m_size).set pos v
        = (l.m_data.take pos ++ [v])
          ++ ((l.m_data.drop pos).take (l.m_size - pos)
              ++ l.m_data.drop (l.m_size + 1)) := by
      rw [hCB, List.append_assoc, List.set_append_left pos v (by rw [hA]; omega)]
      congr 1
      rw [List.set_eq_take_cons_drop v (by rw [hA]; omega)]
      rw [List.take_take, List.drop_eq_nil_of_le (by rw [hA])]
      have hmin : min pos (pos + 1) = pos := by omega
      rw [hmin]
    rw [hsetCB]
    have hlenAv : (l.m_data.take pos ++ [v]).length = pos + 1 := by
      simp [List.length_take]
      omega
    have harith : l.m_size + 1 = (l.m_data.take pos ++ [v]).length + (l.m_size - pos) := by
      rw [hlenAv]
      omega
    rw [harith, List.take_append, List.take_left' hB]
    have hTa : l.elems.take pos = l.m_data.take pos := by
      simp [ArrayList.elems, List.take_take]
      omega
    have hTd : l.elems.drop pos = (l.m_data.drop pos).take (l.m_size - pos) := by
      simp [ArrayList.elems, List.drop_take]
    rw [hTa, hTd]
    simp

theorem resize_spec (l : ArrayList T) (count : Nat) (hinv : l.inv)
    (hne : count ≠ l.m_size) :
    (l.resize count).m_size = count
  ∧ (l.resize count).capacity = count
  ∧ (l.resize count).elems
      = l.elems.take count ++ List.replicate (count - l.m_size) default := by
  have hL : l.m_size ≤ l.m_data.length := hinv
  have hguard : l.size ≠ count := fun h => hne (h.symm)
  have hres : l.resize count
      = ⟨count, writeRange (List.replicate count default) 0
          (l.m_data.take (min count l.m_size))⟩ := by
    simp only [ArrayList.resize, if_pos hguard]
  have hsrclen : (l.m_data.take (min count l.m_size)).length
      = min count l.m_size := by
    simp [List.length_take]
    omega
  have hW : writeRange (List.replicate count default) 0
        (l.m_data.take (min count l.m_size))
      = l.m_data.take (min count l.m_size)
        ++ List.replicate (count - min count l.m_size) (default : T) := by
    rw [writeRange_zero _ _ (by rw [hsrclen]; simp), hsrclen]
    congr 1
    simp [List.drop_replicate]
  have hWlen : (writeRange (List.replicate count default) 0
      (l.m_data.take (min count l.m_size))).length = count := by
    rw [writeRange_length]
    simp
  refine ⟨by rw [hres], by rw [hres]; exact hWlen, ?_⟩
  rw [hres]
  show (writeRange (List.replicate count default) 0
      (l.m_data.take (min count l.m_size))).take count
    = l.elems.take count ++ List.replicate (count - l.m_size) default
  rw [List.take_of_length_le hWlen.le, hW]
  have hTa : l.elems.take count = l.m_data.take (min count l.m_size) := by
    show (l.m_data.take l.m_size).take count = l.m_data.take (min count l.m_size)
    rw [List.take_take]
  rw [hTa]
  congr 1
  congr 1
  omega

theorem resize_id (l : ArrayList T) (count : Nat) (heq : count = l.m_size) :
    l.resize count = l := by
  have : ¬ l.size ≠ count := by
    simp [ArrayList.size, heq]
  simp only [ArrayList.resize, if_neg this]

theorem plusAssign_spec (l other : ArrayList T) (hl : l.inv) (ho : other.inv) :
    (l.plusAssign other).m_size = l.m_size + other.m_size
  ∧ (l.plusAssign other).inv
  ∧ (l.plusAssign other).elems = l.elems ++ other.elems := by
  have hle : l.elems.length = l.m_size := elems_length l hl
  have hoe : other.elems.length = other.m_size := elems_length other ho
  by_cases hc : l.capacity < l.size + other.size
  · -- reallocation to exactly the required size
    set reqd : Nat := l.m_size + other.m_size with hreqd
    set W : List T := writeRange (List.replicate reqd default) 0 l.elems
      with hWdef
    have hres : l.plusAssign other
        = ⟨l.m_size + other.m_size, writeRange W l.m_size other.elems⟩ := by
      simp only [ArrayList.plusAssign, if_pos hc, hWdef, hreqd]
      rfl
    have hWsplit : W = l.elems ++ (List.replicate reqd (default : T)).drop l.m_size := by
      rw [hWdef, writeRange_zero _ _ (by simp [hle]; omega), hle]
    have hWlen : W.length = reqd := by
      rw [hWdef, writeRange_length]
      simp
    have hD : writeRange W l.m_size other.elems = l.elems ++ other.elems := by
      unfold writeRange
      rw [hWlen, hoe]
      have h1 : W.take l.m_size = l.elems := by
        rw [hWsplit]
        exact List.take_left' hle
      have h2 : other.elems.take (reqd - l.m_size) = other.elems := by
        apply List.take_of_length_le
        rw [hoe]
        omega
      have h3 : W.drop (l.m_size + other.m_size) = [] := by
        apply List.drop_eq_nil_of_le
        rw [hWlen]
      rw [h1, h2, h3]
      simp
    have hDlen : (writeRange W l.m_size other.elems).length = reqd := by
      rw [writeRange_length, hWlen]
    refine ⟨by rw [hres], ?_, ?_⟩
    · show (l.plusAssign other).m_size ≤ (l.plusAssign other).m_data.length
      rw [hres]
      show l.m_size + other.m_size ≤ (writeRange W l.m_size other.elems).length
      rw [hDlen]
    · rw [hres]
      show (writeRange W l.m_size other.elems).take (l.m_size + other.m_size)
        = l.elems ++ other.elems
      rw [List.take_of_length_le (le_of_eq hDlen), hD]
  · -- existing buffer already large enough
    have hcap : l.m_size + other.m_size ≤ l.m_data.length := by
      simp only [ArrayList.capacity, ArrayList.size, not_lt] at hc
      exact hc
    have hres : l.plusAssign other
        = ⟨l.m_size + other.m_size, writeRange l.m_data l.m_size other.elems⟩ := by
      simp only [ArrayList.plusAssign, if_neg hc]
    have hD : writeRange l.m_data l.m_size other.elems
        = (l.elems ++ other.elems) ++ l.m_data.drop (l.m_size + other.m_size) := by
      unfold writeRange
      rw [hoe]
      have h2 : other.elems.take (l.m_data.length - l.m_size) = other.elems := by
        apply List.take_of_length_le
        rw [hoe]
        omega
      rw [h2]
      rfl
    have hDlen : (writeRange l.m_data l.m_size other.elems).length
        = l.m_data.length := writeRange_length _ _ _
    have hABlen : (l.elems ++ other.elems).length = l.m_size + other.m_size := by
      rw [List.length_append, hle, hoe]
    refine ⟨by rw [hres], ?_, ?_⟩
    · show (l.plusAssign other).m_size ≤ (l.plusAssign other).m_data.length
      rw [hres]
      show l.m_size + other.m_size ≤ (writeRange l.m_data l.m_size other.elems).length
      rw [hDlen]
      exact hcap
    · rw [hres]
      show (writeRange l.m_data l.m_size other.elems).take (l.m_size + other.m_size)
        = l.elems ++ other.elems
      rw [hD, List.take_append_of_le_length hABlen.ge,
        List.take_of_length_le hABlen.le]

theorem copyAssign_spec (l rhs : ArrayList T) (ho : rhs.inv) :
    (l.copyAssign rhs).m_size = rhs.m_size
  ∧ (l.copyAssign rhs).capacity = rhs.capacity
  ∧ (l.copyAssign rhs).inv
  ∧ (l.copyAssign rhs).elems = rhs.elems := by
  have hoe : rhs.elems.length = rhs.m_size := elems_length rhs ho
  by_cases hc : l.capacity ≠ rhs.capacity
  · have hres : l.copyAssign rhs
        = ⟨rhs.m_size, writeRange (List.replicate rhs.capacity default) 0 rhs.elems⟩ := by
      simp only [ArrayList.copyAssign, if_pos hc]
    have hW : writeRange (List.replicate rhs.capacity default) 0 rhs.elems
        = rhs.elems ++ (List.replicate rhs.capacity (default : T)).drop rhs.m_size := by
      rw [writeRange_zero _ _ (by simp [hoe]; exact ho), hoe]
    have hWlen : (writeRange (List.replicate rhs.capacity default) 0 rhs.elems).length
        = rhs.capacity := by
      rw [writeRange_length]
      simp
    refine ⟨by rw [hres], by rw [hres]; exact hWlen, ?_, ?_⟩
    · show (l.copyAssign rhs).m_size ≤ (l.copyAssign rhs).m_data.length
      rw [hres]
      show rhs.m_size ≤ (writeRange (List.replicate rhs.capacity default) 0 rhs.elems).length
      rw [hWlen]
      exact ho
    · rw [hres]
      show (writeRange (List.replicate rhs.capacity default) 0 rhs.elems).take rhs.m_size
        = rhs.elems
      rw [hW]
      exact List.take_left' hoe
  · have hcap : l.m_data.length = rhs.capacity := by
      simpa [ArrayList.capacity] using hc
    have hres : l.copyAssign rhs
        = ⟨rhs.m_size, writeRange l.m_data 0 rhs.elems⟩ := by
      simp only [ArrayList.copyAssign, if_neg hc]
    have hW : writeRange l.m_data 0 rhs.elems
        = rhs.elems ++ l.m_data.drop rhs.m_size := by
      rw [writeRange_zero _ _ (by rw [hoe, hcap]; exact ho), hoe]
    have hWlen : (writeRange l.m_data 0 rhs.elems).length = rhs.capacity := by
      rw [writeRange_length, hcap]
    refine ⟨by rw [hres], by rw [hres]; exact hWlen, ?_, ?_⟩
    · show (l.copyAssign rhs).m_size ≤ (l.copyAssign rhs).m_data.length
      rw [hres]
      show rhs.m_size ≤ (writeRange l.m_data 0 rhs.elems).length
      rw [hWlen]
      exact ho
    · rw [hres]
      show (writeRange l.m_data 0 rhs.elems).take rhs.m_size = rhs.elems
      rw [hW]
      exact List.take_left' hoe

theorem insert_invOutcome (l : ArrayList T) (pos : Nat) (v : T) (h : l.inv) :
    invOutcome (l.insert pos v) := by
  by_cases hpos : pos > l.m_size
  · unfold ArrayList.insert
    rw [if_pos hpos]
    trivial
  · by_cases hfull : l.m_size = l.m_data.length
    · unfold ArrayList.insert
      rw [if_neg hpos, if_pos (by
        show l.size = l.capacity
        exact hfull)]
      trivial
    · have hroom : l.m_size < l.m_data.length := lt_of_le_of_ne h hfull
      obtain ⟨he, hlen, _⟩ := insert_ok_spec l pos v h (by omega) hroom
      rw [he]
      show l.m_size + 1 ≤ ((copyBackwardWithin l.m_data pos l.m_size).set pos v).length
      rw [hlen]
      omega

theorem erase_invOutcome (l : ArrayList T) (pos : Nat) (h : l.inv) :
    invOutcome (l.erase pos) := by
  by_cases h0 : pos = 0
  · unfold ArrayList.erase
    rw [if_pos h0]
    trivial
  · by_cases h1 : pos > l.m_size
    · unfold ArrayList.erase
      rw [if_neg h0, if_pos h1]
      trivial
    · by_cases h2 : l.m_size < pos + 1
      · unfold ArrayList.erase
        rw [if_neg h0, if_neg h1, if_pos h2]
        trivial
      · obtain ⟨he, hlen, _⟩ := erase_ok_spec l pos h (by omega) (by omega)
        rw [he]
        show l.m_size - 1 ≤ (copyWithin l.m_data (pos + 1) l.m_size pos).length
        rw [hlen]
        have hL : l.m_size ≤ l.m_data.length := h
        omega

/-! ### Claims -/

/-- C1 (amended): `erase(pos)` raises out-of-range exactly for positions
outside `[begin+1, end]` — erasing at `begin()` is rejected and positions
past `end()` are rejected, but `pos == end()` passes the validation, whose
upper test `pos > end()` is strict; a valid erase at a position in
`[begin+1, end)` shifts all elements after `pos` one slot toward the
beginning and decrements the size by one. -/
theorem C1_erase_valid_range {T : Type} [Inhabited T] :
    ∀ (l : ArrayList T) (pos : Nat),
    (l.erase pos = .error .outOfRange ↔ (pos = 0 ∨ l.m_size < pos))
  ∧ (l.inv → 1 ≤ pos → pos < l.m_size →
      ∃ r, l.erase pos = .ok (r, pos)
        ∧ r.m_size = l.m_size - 1
        ∧ r.capacity = l.capacity
        ∧ r.elems = l.elems.take pos ++ l.elems.drop (pos + 1)) := by
  intro l pos
  refine ⟨erase_error_iff l pos, ?_⟩
  intro hinv h1 h2
  obtain ⟨he, hlen, htake⟩ := erase_ok_spec l pos hinv h1 h2
  refine ⟨_, he, rfl, ?_, ?_⟩
  · show (copyWithin l.m_data (pos + 1) l.m_size pos).length = l.m_data.length
    exact hlen
  · show (copyWithin l.m_data (pos + 1) l.m_size pos).take (l.m_size - 1)
      = l.elems.take pos ++ l.elems.drop (pos + 1)
    exact htake

/-- Witness for C1: erasing position 1 of `{4, 5, 6}` succeeds and yields
`{4, 6}` with the size decremented. -/
theorem C1_erase_valid_range_witness :
    ((⟨3, [4, 5, 6]⟩ : ArrayList Nat).erase 1 = .error .outOfRange
      ↔ (1 = 0 ∨ (⟨3, [4, 5, 6]⟩ : ArrayList Nat).m_size < 1))
  ∧ (∃ r, (⟨3, [4, 5, 6]⟩ : ArrayList Nat).erase 1 = .ok (r, 1)
      ∧ r.m_size = (⟨3, [4, 5, 6]⟩ : ArrayList Nat).m_size - 1
      ∧ r.capacity = (⟨3, [4, 5, 6]⟩ : ArrayList Nat).capacity
      ∧ r.elems = (⟨3, [4, 5, 6]⟩ : ArrayList Nat).elems.take 1
          ++ (⟨3, [4, 5, 6]⟩ : ArrayList Nat).elems.drop (1 + 1)) :=
  ⟨(C1_erase_valid_range (⟨3, [4, 5, 6]⟩ : ArrayList Nat) 1).1,
   (C1_erase_valid_range (⟨3, [4, 5, 6]⟩ : ArrayList Nat) 1).2
     (by decide) (by decide) (by decide)⟩

/-- C1 counterexample to the claim as stated: on the one-element container
`{5}`, position 1 is `end()`, which lies outside `[begin+1, end) = [1, 1)`,
yet `erase` does not raise the out-of-range error there — the source's upper
validation `pos > end()` is strict, so `pos == end()` is accepted (and the
subsequent `std::copy(pos + 1, end(), pos)` is handed an invalid range). -/
theorem C1_erase_counterexample :
    ¬ ((⟨1, [5]⟩ : ArrayList Nat).erase 1 = .error .outOfRange)
  ∧ ¬ (1 ≤ 1 ∧ 1 < (⟨1, [5]⟩ : ArrayList Nat).m_size) := by decide

/-- C2: after any sequence of `push_back` calls on an initially empty
container, `size()` equals the number of appended values, `size()` never
exceeds `capacity()`, and reading back by index returns exactly the appended
values in insertion order. -/
theorem C2_push_back_sequence {T : Type} [Inhabited T] : ∀ (vs : List T),
    ((ArrayList.mkCount 0 : ArrayList T).pushAll vs).size = vs.length
  ∧ ((ArrayList.mkCount 0 : ArrayList T).pushAll vs).size
      ≤ ((ArrayList.mkCount 0 : ArrayList T).pushAll vs).capacity
  ∧ ((ArrayList.mkCount 0 : ArrayList T).pushAll vs).elems = vs
  ∧ (∀ i : Nat, i < vs.length →
      ((ArrayList.mkCount 0 : ArrayList T).pushAll vs).atIdx i
        = .ok (vs.getD i default)) := by
  intro vs
  have h0 : (ArrayList.mkCount 0 : ArrayList T).inv := mkCount_inv 0
  obtain ⟨h1, h2, h3⟩ := pushAll_spec vs (ArrayList.mkCount 0) h0
  have hsz : ((ArrayList.mkCount 0 : ArrayList T).pushAll vs).m_size = vs.length := by
    simpa [ArrayList.mkCount] using h1
  have hel : ((ArrayList.mkCount 0 : ArrayList T).pushAll vs).elems = vs := by
    simpa [ArrayList.mkCount, ArrayList.elems] using h3
  refine ⟨hsz, h2, hel, ?_⟩
  intro i hi
  rw [atIdx_ok_of_lt _ i h2 (by rw [hsz]; exact hi), hel]

/-- Witness for C2: pushing `4, 5, 6` onto the empty container and reading
index 1 back yields the second appended value. -/
theorem C2_push_back_sequence_witness :
    ((ArrayList.mkCount 0 : ArrayList Nat).pushAll [4, 5, 6]).atIdx 1
      = .ok ([4, 5, 6].getD 1 default) :=
  (C2_push_back_sequence [4, 5, 6]).2.2.2 1 (by decide)

/-- C3 [code-bug evidence]: at `size == capacity == 2`, `push_back` grows
the capacity to exactly `2 * 2` preserving the elements, and the first
growth from `capacity == 0` yields capacity 1; but `insert`'s growth path
reaches `std::copy_backward(pos, z, ++z)` with the end iterator `z` captured
before the reallocation — `z` dangles into the buffer `delete [] m_data`
just freed, so the model marks every full-container insert as undefined
behavior instead of a doubled, element-preserving grow. -/
theorem C3_growth_doubling :
    ((⟨2, [5, 6]⟩ : ArrayList Nat).push_back 7).capacity = 2 * 2
  ∧ ((⟨2, [5, 6]⟩ : ArrayList Nat).push_back 7).elems = [5, 6, 7]
  ∧ ((⟨0, []⟩ : ArrayList Nat).push_back 7).capacity = 1
  ∧ (⟨2, [5, 6]⟩ : ArrayList Nat).insert 0 7 = .error .undefinedBehavior := by
  decide

/-- C4: `at(pos)` raises out-of-range exactly when `pos >= size()` (the
source tests `pos > size() || pos == size()`), and for `pos < size()` it
returns the element at index `pos`. -/
theorem C4_at_bounds {T : Type} [Inhabited T] : ∀ (l : ArrayList T) (pos : Nat),
    (l.atIdx pos = .error .outOfRange ↔ l.m_size ≤ pos)
  ∧ (l.inv → pos < l.m_size → l.atIdx pos = .ok (l.elems.getD pos default)) := by
  intro l pos
  constructor
  · unfold ArrayList.atIdx
    by_cases h : pos > l.size ∨ pos = l.size
    · rw [if_pos h]
      simp only [ArrayList.size] at h
      simp
      omega
    · rw [if_neg h]
      simp only [ArrayList.size] at h
      simp
      omega
  · intro hinv hlt
    exact atIdx_ok_of_lt l pos hinv hlt

/-- Witness for C4: `at(1)` on `{7, 8}` returns the element at index 1. -/
theorem C4_at_bounds_witness :
    (⟨2, [7, 8]⟩ : ArrayList Nat).atIdx 1
      = .ok ((⟨2, [7, 8]⟩ : ArrayList Nat).elems.getD 1 default) :=
  (C4_at_bounds (⟨2, [7, 8]⟩ : ArrayList Nat) 1).2 (by decide) (by decide)

/-- C5 [code-bug evidence]: with spare capacity, `insert` at an interior
position produces the sequence with the value inserted and returns the
position of the new element, and an out-of-bounds position is rejected with
out-of-range; but on a full container (here the empty one with
`size == capacity == 0`) the growth path dereferences the stale end iterator
`z` captured before reallocation, so no insert into a full container has a
defined result. -/
theorem C5_insert_paths :
    (⟨2, [4, 5, 0]⟩ : ArrayList Nat).insert 1 9 = .ok (⟨3, [4, 9, 5]⟩, 1)
  ∧ (⟨2, [4, 5, 0]⟩ : ArrayList Nat).insert 3 9 = .error .outOfRange
  ∧ (⟨0, []⟩ : ArrayList Nat).insert 0 1 = .error .undefinedBehavior := by
  decide

/-- C6: for `count != size()`, `resize(count)` sets both `size()` and
`capacity()` to exactly `count`, keeps the first `min(count, size())`
elements and default-initializes the newly exposed slots; for
`count == size()` it does nothing at all. -/
theorem C6_resize_exact_fit {T : Type} [Inhabited T] :
    ∀ (l : ArrayList T) (count : Nat),
    (l.inv → count ≠ l.m_size →
        (l.resize count).m_size = count
      ∧ (l.resize count).capacity = count
      ∧ (l.resize count).elems
          = l.elems.take count ++ List.replicate (count - l.m_size) default)
  ∧ (count = l.m_size → l.resize count = l) := by
  intro l count
  exact ⟨resize_spec l count, resize_id l count⟩

/-- Witness for C6: growing `{7, 8}` to 4 slots gives size 4, capacity 4,
contents `{7, 8, 0, 0}`. -/
theorem C6_resize_exact_fit_witness :
    ((⟨2, [7, 8]⟩ : ArrayList Nat).resize 4).m_size = 4
  ∧ ((⟨2, [7, 8]⟩ : ArrayList Nat).resize 4).capacity = 4
  ∧ ((⟨2, [7, 8]⟩ : ArrayList Nat).resize 4).elems
      = (⟨2, [7, 8]⟩ : ArrayList Nat).elems.take 4
        ++ List.replicate (4 - (⟨2, [7, 8]⟩ : ArrayList Nat).m_size) default :=
  (C6_resize_exact_fit (⟨2, [7, 8]⟩ : ArrayList Nat) 4).1 (by decide) (by decide)

/-- C7: `a + b` has size `a.size() + b.size()` and its elements are `a`'s
elements followed by `b`'s elements, for all containers including empty
ones; the operation is non-mutating (in the model `plus` is a pure function
of the operand values — the C++ `operator+` takes its operands by const
reference and works on a copy of the left one). -/
theorem C7_concat_content {T : Type} [Inhabited T] :
    ∀ (a b : ArrayList T), a.inv → b.inv →
    (a.plus b).size = a.size + b.size
  ∧ (a.plus b).elems = a.elems ++ b.elems := by
  intro a b ha hb
  have hc := copyConstruct_inv a ha
  obtain ⟨h1, _, h3⟩ := plusAssign_spec a.copyConstruct b hc hb
  constructor
  · show (a.copyConstruct.plusAssign b).m_size = a.m_size + b.m_size
    rw [h1, copyConstruct_m_size]
  · show (a.copyConstruct.plusAssign b).elems = a.elems ++ b.elems
    rw [h3, copyConstruct_elems a ha]

/-- Witness for C7: `{1, 2} + {3, 4}` has size 4 and elements
`{1, 2, 3, 4}`. -/
theorem C7_concat_content_witness :
    ((⟨2, [1, 2]⟩ : ArrayList Nat).plus ⟨2, [3, 4]⟩).size
      = (⟨2, [1, 2]⟩ : ArrayList Nat).size + (⟨2, [3, 4]⟩ : ArrayList Nat).size
  ∧ ((⟨2, [1, 2]⟩ : ArrayList Nat).plus ⟨2, [3, 4]⟩).elems
      = (⟨2, [1, 2]⟩ : ArrayList Nat).elems ++ (⟨2, [3, 4]⟩ : ArrayList Nat).elems :=
  C7_concat_content ⟨2, [1, 2]⟩ ⟨2, [3, 4]⟩ (by decide) (by decide)

/-- C8: the copy-constructed container compares equal (`operator==`) to its
source, and move construction leaves the destination with exactly the
source's members while the moved-from container becomes the empty state with
`size() == 0` and `capacity() == 0`. -/
theorem C8_copy_move_roundtrip {T : Type} [Inhabited T] [DecidableEq T] :
    ∀ (x : ArrayList T), x.inv →
    x.copyConstruct.beq x = true
  ∧ x.moveConstruct.1 = x
  ∧ x.moveConstruct.2.size = 0
  ∧ x.moveConstruct.2.capacity = 0 := by
  intro x hx
  refine ⟨?_, rfl, rfl, rfl⟩
  simp [ArrayList.beq, copyConstruct_elems x hx]

/-- Witness for C8 at `{7, 8}` stored in a 3-slot buffer. -/
theorem C8_copy_move_roundtrip_witness :
    (⟨2, [7, 8, 9]⟩ : ArrayList Nat).copyConstruct.beq ⟨2, [7, 8, 9]⟩ = true
  ∧ (⟨2, [7, 8, 9]⟩ : ArrayList Nat).moveConstruct.1 = ⟨2, [7, 8, 9]⟩
  ∧ (⟨2, [7, 8, 9]⟩ : ArrayList Nat).moveConstruct.2.size = 0
  ∧ (⟨2, [7, 8, 9]⟩ : ArrayList Nat).moveConstruct.2.capacity = 0 :=
  C8_copy_move_roundtrip ⟨2, [7, 8, 9]⟩ (by decide)

/-- C9: `size() <= capacity()` holds after every constructor and is
preserved by every public operation — `push_back`, `insert`, `erase`,
`resize`, `clear`, `swap`, copy/move assignment, `+=`, and copy/move
construction (for the fallible operations, on every defined result). -/
theorem C9_size_le_capacity {T : Type} [Inhabited T] :
    ∀ (l other : ArrayList T) (v : T) (pos count : Nat),
    l.inv → other.inv →
      (ArrayList.mkCount count : ArrayList T).inv
    ∧ (l.push_back v).inv
    ∧ invOutcome (l.insert pos v)
    ∧ invOutcome (l.erase pos)
    ∧ (l.resize count).inv
    ∧ l.clear.inv
    ∧ (l.swap other).1.inv
    ∧ (l.swap other).2.inv
    ∧ (l.copyAssign other).inv
    ∧ (l.moveAssign other).1.inv
    ∧ (l.moveAssign other).2.inv
    ∧ (l.plusAssign other).inv
    ∧ l.copyConstruct.inv
    ∧ l.moveConstruct.1.inv
    ∧ l.moveConstruct.2.inv := by
  intro l other v pos count hl ho
  refine ⟨mkCount_inv count, (push_back_spec l v hl).2.1,
    insert_invOutcome l pos v hl, erase_invOutcome l pos hl, ?_, ?_, ho, hl,
    (copyAssign_spec l other ho).2.2.1, ho, ?_,
    (plusAssign_spec l other hl ho).2.1, copyConstruct_inv l hl, hl, ?_⟩
  · by_cases hc : count = l.m_size
    · rw [resize_id l count hc]
      exact hl
    · obtain ⟨h1, h2, _⟩ := resize_spec l count hl hc
      show (l.resize count).m_size ≤ (l.resize count).m_data.length
      rw [h1]
      exact h2.ge
  · exact Nat.zero_le _
  · exact Nat.le_refl 0
  · exact Nat.le_refl 0

/-- Witness for C9: two of the preserved-invariant conjuncts instantiated
on concrete containers. -/
theorem C9_size_le_capacity_witness :
    ((⟨1, [5, 0]⟩ : ArrayList Nat).push_back 9).inv
  ∧ ((⟨1, [5, 0]⟩ : ArrayList Nat).plusAssign ⟨1, [7]⟩).inv :=
  ⟨(C9_size_le_capacity ⟨1, [5, 0]⟩ ⟨1, [7]⟩ 9 1 2 (by decide) (by decide)).2.1,
   (C9_size_le_capacity ⟨1, [5, 0]⟩ ⟨1, [7]⟩ 9 1 2
     (by decide) (by decide)).2.2.2.2.2.2.2.2.2.2.2.1⟩

/-- C10: copy construction allocates exactly `other.size()` slots
(`ArrayList(other.size())`), so the copy's capacity equals the source's size
and spare capacity is never carried over. -/
theorem C10_copy_capacity {T : Type} [Inhabited T] :
    ∀ (x : ArrayList T), x.copyConstruct.capacity = x.size := by
  intro x
  exact copyConstruct_capacity x

end AL
